import Mathlib

/-!
Shallow embedding of the core of `crew_disc_bot` (`src/bot.py`, `src/util.py`).

Python dictionaries are modelled as insertion-ordered association lists
(`dictSet` reproduces CPython's update-in-place / append-if-new semantics),
Python sets of emojis as duplicate-free lists extended at the end, timestamps
(`datetime.datetime.now()` plus a `timedelta` of days) as integers in abstract
time-units, and a raised Python exception as an `Except.error` result paired
with the state at the moment of the raise (CPython mutates `self` in place, so
mutations performed before the raise survive it).
-/

namespace CrewDiscBot

abbrev Emoji := String
abbrev UserId := Int


/-- Python `d[k] = v` on an insertion-ordered dict: replace in place if the
key is present, append at the end otherwise. -/
def dictSet {α β : Type} [DecidableEq α] : List (α × β) → α → β → List (α × β)
  | [], k, v => [(k, v)]
  | p :: rest, k, v => if p.1 = k then (k, v) :: rest else p :: dictSet rest k v

/-- State of the `ReactionEmojis` class: `reactions` maps a user id to the
dict from emoji to expiry timestamp; `used_emojis` is the set of all emojis
ever scheduled (a Python set, modelled as a list extended at the end). The
`pickle_file` field and `save` calls are I/O glue and carry no registry
state, so they are not modelled. -/
structure ReactionEmojis where
  reactions : List (UserId × List (Emoji × Int))
  used_emojis : List Emoji
deriving DecidableEq

def MAX_DURATION : Int := 14

/-- `ReactionEmojis.remove_old_reactions`: for every user, drop every emoji
whose stored expiry is strictly before the current time (the source marks
such entries `None` and then rebuilds the dict keeping the rest, which
preserves insertion order of survivors). -/
def remove_old_reactions (now : Int) (s : ReactionEmojis) : ReactionEmojis :=
  { s with reactions :=
      s.reactions.map (fun p => (p.1, p.2.filter (fun q => ! decide (q.2 < now)))) }

/-- `ReactionEmojis.add_reaction`: sweep expired entries, then validate the
duration (raising `ValueError` leaves the already-swept state behind), then
store `now + duration` for `(usr_id, emoji)` and record the emoji in
`used_emojis`. -/
def add_reaction (now : Int) (usr_id : UserId) (emoji : Emoji) (duration : Int)
    (s : ReactionEmojis) : ReactionEmojis × Except String Unit :=
  let s1 := remove_old_reactions now s
  if duration > MAX_DURATION ∨ duration < 0 then
    (s1, .error "Invalid duration")
  else
    let userMap := (s1.reactions.lookup usr_id).getD []
    let s2 := { s1 with
      reactions := dictSet s1.reactions usr_id (dictSet userMap emoji (now + duration)) }
    let s3 := if emoji ∈ s2.used_emojis then s2
              else { s2 with used_emojis := s2.used_emojis ++ [emoji] }
    (s3, .ok ())

/-- `ReactionEmojis.remove_all_reactions`: unconditionally assigns an empty
dict to `reactions[usr_id]` (inserting the key when absent) and saves; it
runs no eviction sweep. -/
def remove_all_reactions (usr_id : UserId) (s : ReactionEmojis) : ReactionEmojis :=
  { s with reactions := dictSet s.reactions usr_id [] }

/-- `ReactionEmojis.get_reactions`: sweep expired entries, save, then return
the list of emoji keys stored for `usr_id` (empty when the user is absent). -/
def get_reactions (now : Int) (usr_id : UserId) (s : ReactionEmojis) :
    ReactionEmojis × List Emoji :=
  let s1 := remove_old_reactions now s
  match s1.reactions.lookup usr_id with
  | none => (s1, [])
  | some m => (s1, m.map Prod.fst)

/-- `ReactionEmojis.add_random_reaction`. `probPass` is the outcome of the
draw `random.random() < ReactionEmojis.RAND_REACT_PROB`, and `pickIdx`
resolves the choice made by `random.sample(..., 1)`. When the probability
check passes and `used_emojis.difference(curr_emojis)` is non-empty, the
source then executes `self.add_reaction(usr_id, emoji)` — but
`add_reaction(self, usr_id, emoji, duration)` declares `duration` with no
default, so that call raises
`TypeError: add_reaction() missing 1 required positional argument: 'duration'`
before any scheduling happens; the state keeps only the sweep performed by
the inner `get_reactions` call. -/
def add_random_reaction (now : Int) (usr_id : UserId) (probPass : Bool) (pickIdx : Nat)
    (s : ReactionEmojis) : ReactionEmojis × Except String Unit :=
  if probPass then
    let r := get_reactions now usr_id s
    let possible := r.1.used_emojis.filter (fun e => ! decide (e ∈ r.2))
    if possible ≠ [] then
      let _emoji := possible.get? (pickIdx % possible.length)
      (r.1, .error "TypeError: add_reaction missing 1 required positional argument: duration")
    else (r.1, .ok ())
  else (s, .ok ())

/-- No stored expiry lies strictly in the past at time `now`. -/
def noExpired (now : Int) (s : ReactionEmojis) : Bool :=
  s.reactions.all (fun p => p.2.all (fun q => decide (now ≤ q.2)))

section DictLemmas

variable {α β γ : Type}

theorem lookup_dictSet_self [DecidableEq α] [BEq α] [LawfulBEq α] (d : List (α × β)) (k : α) (v : β) :
    (dictSet d k v).lookup k = some v := by
  induction d with
  | nil => simp [dictSet, List.lookup]
  | cons p rest ih =>
    by_cases h : p.1 = k
    · simp [dictSet, h, List.lookup]
    · simp only [dictSet, if_neg h, List.lookup]
      have hk : (k == p.1) = false := by
        simp only [beq_eq_false_iff_ne]
        exact fun hkk => h hkk.symm
      simp [hk, ih]

theorem lookup_dictSet_ne [DecidableEq α] [BEq α] [LawfulBEq α] (d : List (α × β)) (k k' : α) (v : β) (h : k' ≠ k) :
    (dictSet d k v).lookup k' = d.lookup k' := by
  induction d with
  | nil =>
    have : (k' == k) = false := by simpa using h
    simp [dictSet, List.lookup, this]
  | cons p rest ih =>
    by_cases hp : p.1 = k
    · have h1 : (k' == k) = false := by simpa using h
      have h2 : (k' == p.1) = false := by
        simp only [beq_eq_false_iff_ne]
        exact fun hkk => h (hkk.trans hp)
      simp [dictSet, hp, List.lookup, h1, h2]
    · simp [dictSet, hp, List.lookup, ih]

theorem lookup_mapValues [BEq α] (f : β → γ) (l : List (α × β)) (k : α) :
    (l.map (fun p => (p.1, f p.2))).lookup k = (l.lookup k).map f := by
  induction l with
  | nil => simp [List.lookup]
  | cons p rest ih =>
    by_cases h : k == p.1
    · simp [List.lookup, h]
    · simp only [Bool.not_eq_true] at h
      simp [List.lookup, h, ih]

theorem mem_of_lookup [BEq α] [LawfulBEq α] (m : List (α × β)) (e : α) (t : β)
    (h : m.lookup e = some t) : (e, t) ∈ m := by
  induction m with
  | nil => simp [List.lookup] at h
  | cons q rest ih =>
    by_cases hb : e == q.1
    · simp only [List.lookup, hb, Option.some.injEq] at h
      have he : e = q.1 := eq_of_beq hb
      have : (e, t) = q := by cases q; simp_all
      rw [this]; exact List.mem_cons_self _ _
    · simp only [Bool.not_eq_true] at hb
      simp only [List.lookup, hb] at h
      exact List.mem_cons_of_mem _ (ih h)

theorem mem_keys_of_lookup_filter [BEq α] [LawfulBEq α] (m : List (α × β))
    (p : α × β → Bool) (e : α) (t : β)
    (hl : m.lookup e = some t) (hp : p (e, t) = true) :
    e ∈ (m.filter p).map Prod.fst :=
  List.mem_map.mpr ⟨(e, t), List.mem_filter.mpr ⟨mem_of_lookup m e t hl, hp⟩, rfl⟩

end DictLemmas

theorem remove_old_lookup (now : Int) (u : UserId) (s : ReactionEmojis) :
    (remove_old_reactions now s).reactions.lookup u
      = (s.reactions.lookup u).map (List.filter (fun q => ! decide (q.2 < now))) := by
  simp [remove_old_reactions, lookup_mapValues]

theorem remove_old_idem (now : Int) (s : ReactionEmojis) :
    remove_old_reactions now (remove_old_reactions now s) = remove_old_reactions now s := by
  simp [remove_old_reactions, List.filter_filter]

/-- C1: for every owner, token and integer duration `d` with `0 ≤ d ≤ 14`,
`schedule` succeeds, the registry afterwards stores `now + d` for
`(owner, token)` (overwriting any prior entry), and an immediately following
`active(owner)` includes the token. -/
theorem schedule_valid_succeeds (now : Int) (s : ReactionEmojis) (u : UserId)
    (e : Emoji) (d : Int) (h0 : 0 ≤ d) (h14 : d ≤ 14) :
    (add_reaction now u e d s).2 = .ok () ∧
    (∃ m, (add_reaction now u e d s).1.reactions.lookup u = some m ∧
          m.lookup e = some (now + d)) ∧
    e ∈ (get_reactions now u (add_reaction now u e d s).1).2 := by
  have hcond : ¬ (d > MAX_DURATION ∨ d < 0) := by
    show ¬ (d > (14 : Int) ∨ d < 0)
    omega
  set s1 := remove_old_reactions now s with hs1
  set userMap := (s1.reactions.lookup u).getD [] with hum
  set inner := dictSet userMap e (now + d) with hinner
  set s2 : ReactionEmojis :=
    { s1 with reactions := dictSet s1.reactions u inner } with hs2
  have hstate : (add_reaction now u e d s).1 =
      (if e ∈ s2.used_emojis then s2
       else { s2 with used_emojis := s2.used_emojis ++ [e] }) := by
    simp only [add_reaction, if_neg hcond, ← hs1, ← hum, ← hinner, ← hs2]
  have hres : (add_reaction now u e d s).2 = .ok () := by
    simp only [add_reaction, if_neg hcond]
  have hreacts : (add_reaction now u e d s).1.reactions = dictSet s1.reactions u inner := by
    rw [hstate]
    by_cases hmem : e ∈ s2.used_emojis <;> simp [hmem, hs2]
  have hlook : (add_reaction now u e d s).1.reactions.lookup u = some inner := by
    rw [hreacts]; exact lookup_dictSet_self _ _ _
  have hlooke : inner.lookup e = some (now + d) := lookup_dictSet_self _ _ _
  refine ⟨hres, ⟨inner, hlook, hlooke⟩, ?_⟩
  -- active(owner) after the call: the swept entry for e survives since now + d ≥ now
  have hswept : (remove_old_reactions now (add_reaction now u e d s).1).reactions.lookup u
      = some (inner.filter (fun q => ! decide (q.2 < now))) := by
    rw [remove_old_lookup, hlook]; rfl
  have hkeep : (fun q : Emoji × Int => ! decide (q.2 < now)) (e, now + d) = true := by
    have hnl : ¬ (now + d < now) := by omega
    simp [hnl]
  have hmem := mem_keys_of_lookup_filter inner
    (fun q => ! decide (q.2 < now)) e (now + d) hlooke hkeep
  simp only [get_reactions, hswept]
  exact hmem

/-- Witness for C1 at a concrete input. -/
theorem schedule_valid_succeeds_witness :
    (0 : Int) ≤ 3 ∧ (3 : Int) ≤ 14 ∧
    ((add_reaction 0 1 "x" 3 ⟨[], []⟩).2 = .ok () ∧
     (∃ m, (add_reaction 0 1 "x" 3 ⟨[], []⟩).1.reactions.lookup 1 = some m ∧
           m.lookup "x" = some (0 + 3)) ∧
     "x" ∈ (get_reactions 0 1 (add_reaction 0 1 "x" 3 ⟨[], []⟩).1).2) :=
  ⟨by decide, by decide,
    schedule_valid_succeeds 0 ⟨[], []⟩ 1 "x" 3 (by decide) (by decide)⟩

/-- C2: for every owner, token and integer duration `d` with `d < 0` or
`d > 14`, `schedule` fails with the invalid-duration error and leaves the
registry unmodified apart from the implicit eviction sweep, so
`active(owner)` is unchanged from before the call. -/
theorem schedule_invalid_fails (now : Int) (s : ReactionEmojis) (u : UserId)
    (e : Emoji) (d : Int) (h : d < 0 ∨ d > 14) :
    add_reaction now u e d s = (remove_old_reactions now s, .error "Invalid duration") ∧
    (get_reactions now u (add_reaction now u e d s).1).2 = (get_reactions now u s).2 := by
  have hcond : d > MAX_DURATION ∨ d < 0 := by
    show d > (14 : Int) ∨ d < 0
    omega
  have h1 : add_reaction now u e d s = (remove_old_reactions now s, .error "Invalid duration") := by
    simp only [add_reaction, if_pos hcond]
  refine ⟨h1, ?_⟩
  rw [h1]
  simp only [get_reactions, remove_old_idem]

/-- Witness for C2 at a concrete input. -/
theorem schedule_invalid_fails_witness :
    ((15 : Int) < 0 ∨ (15 : Int) > 14) ∧
    (add_reaction 0 1 "x" 15 ⟨[], []⟩ =
        (remove_old_reactions 0 ⟨[], []⟩, .error "Invalid duration") ∧
     (get_reactions 0 1 (add_reaction 0 1 "x" 15 ⟨[], []⟩).1).2 =
        (get_reactions 0 1 ⟨[], []⟩).2) :=
  ⟨by omega, schedule_invalid_fails 0 ⟨[], []⟩ 1 "x" 15 (by omega)⟩

/-- C3: `active(owner)` returns exactly the tokens whose stored expiry
satisfies `expiresAt ≥ now` at call time (the sweep runs first, so expired
tokens are never visible), and returns the empty list when the owner is
unknown. -/
theorem active_characterization (now : Int) (u : UserId) (s : ReactionEmojis) :
    (∀ e : Emoji, e ∈ (get_reactions now u s).2 ↔
        ∃ m, s.reactions.lookup u = some m ∧ ∃ t, (e, t) ∈ m ∧ now ≤ t) ∧
    (s.reactions.lookup u = none → (get_reactions now u s).2 = []) := by
  have hro := remove_old_lookup now u s
  cases hl : s.reactions.lookup u with
  | none =>
    rw [hl] at hro
    simp only [Option.map_none'] at hro
    simp [get_reactions, hro, hl]
  | some m =>
    rw [hl] at hro
    simp only [Option.map_some'] at hro
    refine ⟨fun e => ?_, fun hc => by simp [hl] at hc⟩
    simp only [get_reactions, hro, hl, Option.some.injEq, exists_eq_left']
    constructor
    · intro hmem
      rcases List.mem_map.mp hmem with ⟨q, hq, hqe⟩
      rcases List.mem_filter.mp hq with ⟨hqm, hqp⟩
      refine ⟨q.2, ?_, ?_⟩
      · rw [← hqe]; exact hqm
      · simp only [Bool.not_eq_eq_eq_not, Bool.not_true, decide_eq_false_iff_not, not_lt] at hqp
        exact hqp
    · rintro ⟨t, htm, htn⟩
      refine List.mem_map.mpr ⟨(e, t), List.mem_filter.mpr ⟨htm, ?_⟩, rfl⟩
      simp only [Bool.not_eq_eq_eq_not, Bool.not_true, decide_eq_false_iff_not, not_lt]
      exact htn

/-- Witness for C3 at a concrete input (unknown owner yields the empty list). -/
theorem active_characterization_witness :
    (⟨[], []⟩ : ReactionEmojis).reactions.lookup 1 = none ∧
    (get_reactions 0 1 ⟨[], []⟩).2 = [] :=
  ⟨rfl, (active_characterization 0 1 ⟨[], []⟩).2 rfl⟩

/-- C7: `clearAll(owner)` empties the owner's sub-map (also when the owner
had no entries), so an immediately following `active(owner)` returns the
empty list, whatever the prior state. -/
theorem clearAll_then_active_empty (now : Int) (u : UserId) (s : ReactionEmojis) :
    (remove_all_reactions u s).reactions.lookup u = some [] ∧
    (get_reactions now u (remove_all_reactions u s)).2 = [] := by
  have h1 : (remove_all_reactions u s).reactions.lookup u = some [] :=
    lookup_dictSet_self _ _ _
  refine ⟨h1, ?_⟩
  have h2 : (remove_old_reactions now (remove_all_reactions u s)).reactions.lookup u
      = some [] := by
    rw [remove_old_lookup, h1]; rfl
  simp [get_reactions, h2]

/-- C9: `remove_all_reactions` modifies only the targeted owner's sub-map
(inserting an empty one when the owner was absent); every other owner's
entries — including already-expired ones, as no sweep runs — and the
`used_emojis` set are left unchanged. -/
theorem clearAll_frame (u : UserId) (s : ReactionEmojis) :
    (remove_all_reactions u s).used_emojis = s.used_emojis ∧
    (remove_all_reactions u s).reactions.lookup u = some [] ∧
    ∀ v : UserId, v ≠ u →
      (remove_all_reactions u s).reactions.lookup v = s.reactions.lookup v :=
  ⟨rfl, lookup_dictSet_self _ _ _, fun _ hv => lookup_dictSet_ne _ _ _ _ hv⟩

/-- Witness for C9 at a concrete input: clearing owner 2 leaves owner 1's
already-expired entry (expiry -5) untouched. -/
theorem clearAll_frame_witness :
    (remove_all_reactions 2 ⟨[(1, [("x", -5)])], ["x"]⟩).reactions.lookup 1
      = some [("x", -5)] :=
  (clearAll_frame 2 ⟨[(1, [("x", -5)])], ["x"]⟩).2.2 1 (by decide)

theorem noExpired_remove_old (now : Int) (s : ReactionEmojis) :
    noExpired now (remove_old_reactions now s) = true := by
  simp only [noExpired, remove_old_reactions, List.all_map]
  rw [List.all_eq_true]
  intro p _
  simp only [Function.comp_apply, List.all_eq_true]
  intro q hq
  rcases List.mem_filter.mp hq with ⟨_, hqp⟩
  simp only [Bool.not_eq_eq_eq_not, Bool.not_true, decide_eq_false_iff_not, not_lt] at hqp
  simp [hqp]

theorem all_dictSet {α β : Type} [DecidableEq α] (d : List (α × β)) (k : α) (v : β)
    (g : α × β → Bool) (hd : d.all g = true) (hv : g (k, v) = true) :
    (dictSet d k v).all g = true := by
  induction d with
  | nil => simp [dictSet, hv]
  | cons p rest ih =>
    simp only [List.all_cons, Bool.and_eq_true] at hd
    by_cases h : p.1 = k
    · simp [dictSet, h, hv, List.all_cons, hd.2]
    · simp [dictSet, h, List.all_cons, hd.1, ih hd.2]

theorem all_lookup_getD {α β : Type} [BEq α] [LawfulBEq α]
    (l : List (α × List β)) (u : α) (g : β → Bool)
    (hl : l.all (fun p => p.2.all g) = true) :
    ((l.lookup u).getD []).all g = true := by
  cases h : l.lookup u with
  | none => rfl
  | some m =>
    have hm := mem_of_lookup l u m h
    rw [List.all_eq_true] at hl
    exact hl (u, m) hm

/-- Counterexample to C5 as stated: `clearAll` runs no eviction sweep, so
clearing owner 2 at time 5 leaves owner 1's token mapped to the past expiry
0. -/
theorem clearAll_leaves_expired_counterexample :
    noExpired 5 (remove_all_reactions 2 ⟨[(1, [("x", 0)])], ["x"]⟩) = false := by
  decide

/-- C5 amended: after `schedule` (successful or failing) and after `active`
return, no token for any owner maps to an expiry in the past; `clearAll`
alone does not run the sweep, so it can leave other owners' already-expired
entries behind. -/
theorem registry_no_expired_amended (now : Int) (s : ReactionEmojis) (u : UserId)
    (e : Emoji) (d : Int) :
    noExpired now (add_reaction now u e d s).1 = true ∧
    noExpired now (get_reactions now u s).1 = true := by
  constructor
  · by_cases hcond : d > MAX_DURATION ∨ d < 0
    · simp only [add_reaction, if_pos hcond]
      exact noExpired_remove_old now s
    · have hd0 : 0 ≤ d := by
        have : ¬ (d > (14 : Int) ∨ d < 0) := hcond
        omega
      set s1 := remove_old_reactions now s with hs1
      set userMap := (s1.reactions.lookup u).getD [] with hum
      set inner := dictSet userMap e (now + d) with hinner
      set s2 : ReactionEmojis :=
        { s1 with reactions := dictSet s1.reactions u inner } with hs2
      have hreacts : (add_reaction now u e d s).1.reactions = dictSet s1.reactions u inner := by
        have hstate : (add_reaction now u e d s).1 =
            (if e ∈ s2.used_emojis then s2
             else { s2 with used_emojis := s2.used_emojis ++ [e] }) := by
          simp only [add_reaction, if_neg hcond, ← hs1, ← hum, ← hinner, ← hs2]
        rw [hstate]
        by_cases hmem : e ∈ s2.used_emojis <;> simp [hmem, hs2]
      have hall1 : s1.reactions.all (fun p => p.2.all (fun q => decide (now ≤ q.2))) = true :=
        noExpired_remove_old now s
      have huser : userMap.all (fun q => decide (now ≤ q.2)) = true :=
        all_lookup_getD s1.reactions u _ hall1
      have hinall : inner.all (fun q => decide (now ≤ q.2)) = true := by
        refine all_dictSet userMap e (now + d) _ huser ?_
        simp only [decide_eq_true_eq]
        omega
      show (add_reaction now u e d s).1.reactions.all
        (fun p => p.2.all (fun q => decide (now ≤ q.2))) = true
      rw [hreacts]
      exact all_dictSet s1.reactions u inner _ hall1 hinall
  · have : (get_reactions now u s).1 = remove_old_reactions now s := by
      cases h : (remove_old_reactions now s).reactions.lookup u <;>
        simp [get_reactions, h]
    rw [this]
    exact noExpired_remove_old now s

/-- Counterexample to C8 as stated: a `schedule` call with an invalid
duration raises before reaching the `used_emojis` update, so the token is
not added to the pool. -/
theorem usedTokens_unconditional_counterexample :
    ¬ ("x" ∈ (add_reaction 0 1 "x" (-1) ⟨[], []⟩).1.used_emojis) := by
  decide

/-- C8 amended: every successful `schedule` call adds the token to
`used_emojis` (a failing call raises before the update), and `used_emojis`
is monotonically growing: neither `schedule` nor eviction, `clearAll`,
`active` or the random-augmentation path ever removes a token from it. -/
theorem usedTokens_monotone_amended (now : Int) (s : ReactionEmojis) (u : UserId)
    (e x : Emoji) (d : Int) (probPass : Bool) (pickIdx : Nat) :
    ((add_reaction now u e d s).2 = .ok () → e ∈ (add_reaction now u e d s).1.used_emojis) ∧
    (x ∈ s.used_emojis → x ∈ (add_reaction now u e d s).1.used_emojis) ∧
    (remove_all_reactions u s).used_emojis = s.used_emojis ∧
    (get_reactions now u s).1.used_emojis = s.used_emojis ∧
    (add_random_reaction now u probPass pickIdx s).1.used_emojis = s.used_emojis := by
  have hget0 : (get_reactions now u s).1 = remove_old_reactions now s := by
    cases h : (remove_old_reactions now s).reactions.lookup u <;>
      simp [get_reactions, h]
  have hget : (get_reactions now u s).1.used_emojis = s.used_emojis := by
    rw [hget0]; rfl
  refine ⟨?_, ?_, rfl, hget, ?_⟩
  · intro hok
    by_cases hcond : d > MAX_DURATION ∨ d < 0
    · simp [add_reaction, if_pos hcond] at hok
    · simp only [add_reaction, if_neg hcond]
      by_cases hmem : e ∈
        ({ remove_old_reactions now s with
            reactions := dictSet (remove_old_reactions now s).reactions u
              (dictSet (((remove_old_reactions now s).reactions.lookup u).getD [])
                e (now + d)) } : ReactionEmojis).used_emojis
      · simp only [if_pos hmem]
        exact hmem
      · simp only [if_neg hmem]
        simp
  · intro hx
    by_cases hcond : d > MAX_DURATION ∨ d < 0
    · simpa [add_reaction, if_pos hcond, remove_old_reactions] using hx
    · simp only [add_reaction, if_neg hcond]
      have hx1 : x ∈ (remove_old_reactions now s).used_emojis := hx
      by_cases hmem : e ∈
        ({ remove_old_reactions now s with
            reactions := dictSet (remove_old_reactions now s).reactions u
              (dictSet (((remove_old_reactions now s).reactions.lookup u).getD [])
                e (now + d)) } : ReactionEmojis).used_emojis
      · simp only [if_pos hmem]
        exact hx1
      · simp only [if_neg hmem]
        simp only [List.mem_append]
        exact Or.inl hx1
  · by_cases hp : probPass
    · have hget1 : (get_reactions now u s).1 = remove_old_reactions now s := by
        cases h : (remove_old_reactions now s).reactions.lookup u <;>
          simp [get_reactions, h]
      by_cases hne : (get_reactions now u s).1.used_emojis.filter
          (fun e => ! decide (e ∈ (get_reactions now u s).2)) ≠ []
      · simp only [add_random_reaction, if_pos hp, if_pos hne]
        rw [hget1]
        rfl
      · simp only [add_random_reaction, if_pos hp, if_neg hne]
        rw [hget1]
        rfl
    · simp [add_random_reaction, hp]

/-- Witness for C8's amended theorem at a concrete input. -/
theorem usedTokens_monotone_amended_witness :
    "y" ∈ (add_reaction 0 1 "y" 3 ⟨[], ["x"]⟩).1.used_emojis ∧
    "x" ∈ (add_reaction 0 1 "y" 3 ⟨[], ["x"]⟩).1.used_emojis :=
  ⟨(usedTokens_monotone_amended 0 ⟨[], ["x"]⟩ 1 "y" "x" 3 true 0).1 rfl,
   (usedTokens_monotone_amended 0 ⟨[], ["x"]⟩ 1 "y" "x" 3 true 0).2.1 (by decide)⟩

/-- C4 (code bug): `add_random_reaction` with a passing probability draw and
a non-empty candidate pool reaches `self.add_reaction(usr_id, emoji)`, a
call missing the required `duration` argument, and therefore raises
`TypeError` instead of scheduling the picked token with default duration 3:
here owner 7 has no active tokens and the pool holds one candidate. -/
theorem maybeAugment_raises_typeError :
    add_random_reaction 0 7 true 0 ⟨[(7, [])], ["z"]⟩ =
      (⟨[(7, [])], ["z"]⟩,
       .error "TypeError: add_reaction missing 1 required positional argument: duration") := by
  rfl

/-! ### `src/util.py`: `get_id_from_tag`

Python strings are modelled as `List Char`. `pyStrip`, `pyRemoveLeading` and
`pyRemoveTrailing` model `str.strip()`, `str.removeprefix` and
`str.removesuffix`; `pyInt` models `int(s)` in base 10 over the ASCII range
(`none` where CPython raises `ValueError`). -/

/-- ASCII whitespace as stripped by Python `str.strip()`: space, `\t`, `\n`,
`\v`, `\f`, `\r`. -/
def isSpaceChar (c : Char) : Bool :=
  c.toNat = 32 ∨ (9 ≤ c.toNat ∧ c.toNat ≤ 13)

/-- ASCII decimal digit `0`–`9`. -/
def isDigitChar (c : Char) : Bool :=
  48 ≤ c.toNat ∧ c.toNat ≤ 57

/-- Python `str.strip()`: drop whitespace from both ends. -/
def pyStrip (l : List Char) : List Char :=
  ((l.dropWhile isSpaceChar).reverse.dropWhile isSpaceChar).reverse

/-- Python `str.removeprefix(pre)`. -/
def pyRemoveLeading (pre l : List Char) : List Char :=
  if pre.isPrefixOf l then l.drop pre.length else l

/-- Python `str.removesuffix(suf)`. -/
def pyRemoveTrailing (suf l : List Char) : List Char :=
  if suf.isSuffixOf l then l.take (l.length - suf.length) else l

/-- Digit run of a CPython base-10 integer literal after the first digit:
digits, with single underscores allowed between digits. -/
def pyDigitsCore (acc : Nat) : List Char → Option Nat
  | [] => some acc
  | c :: rest =>
    if isDigitChar c then pyDigitsCore (10 * acc + (c.toNat - 48)) rest
    else if c = '_' then
      match rest with
      | [] => none
      | d :: rest2 =>
        if isDigitChar d then pyDigitsCore (10 * acc + (d.toNat - 48)) rest2
        else none
    else none

/-- Nonempty digit run: the first character must be a digit (no leading
underscore). -/
def pyDigits : List Char → Option Nat
  | [] => none
  | c :: rest => if isDigitChar c then pyDigitsCore (c.toNat - 48) rest else none

/-- Python `int(s)` in base 10 over the ASCII range: strip whitespace, an
optional sign, then a nonempty digit run; `none` where CPython raises
`ValueError`. -/
def pyInt (l : List Char) : Option Int :=
  match pyStrip l with
  | [] => none
  | c :: rest =>
    if c = '+' then (pyDigits rest).map (fun n => (n : Int))
    else if c = '-' then (pyDigits rest).map (fun n => -(n : Int))
    else (pyDigits (c :: rest)).map (fun n => (n : Int))

/-- `get_id_from_tag` from `src/util.py`:
`int(tag.strip().removeprefix("<@").removesuffix(">"))` with the
`except ValueError` handler returning `None`; `int` applied to a `str`
raises only `ValueError`, so the function is total. -/
def get_id_from_tag (tag : List Char) : Option Int :=
  pyInt (pyRemoveTrailing ['>'] (pyRemoveLeading ['<', '@'] (pyStrip tag)))

/-- Spec-side reading of "parses as the decimal integer n" for a plain
digit string. -/
def decimalVal (ds : List Char) : Int :=
  Int.ofNat (ds.foldl (fun a c => 10 * a + (c.toNat - 48)) 0)

theorem ne_of_digit_nondigit (c d : Char) (h : isDigitChar c = true)
    (hd : isDigitChar d = false) : c ≠ d := by
  intro he
  rw [he, hd] at h
  cases h

theorem isDigitChar_not_space (c : Char) (h : isDigitChar c = true) :
    isSpaceChar c = false := by
  simp only [isDigitChar, decide_eq_true_eq] at h
  simp only [isSpaceChar, decide_eq_false_iff_not]
  omega

theorem dropWhile_all_false (p : Char → Bool) (l : List Char)
    (h : ∀ c ∈ l, p c = false) : l.dropWhile p = l := by
  cases l with
  | nil => rfl
  | cons c rest =>
    have hc := h c (List.mem_cons_self c rest)
    simp [List.dropWhile_cons, hc]

theorem pyStrip_all_false (l : List Char) (h : ∀ c ∈ l, isSpaceChar c = false) :
    pyStrip l = l := by
  unfold pyStrip
  rw [dropWhile_all_false _ _ h, dropWhile_all_false, List.reverse_reverse]
  intro c hc
  exact h c (List.mem_reverse.mp hc)

theorem pyDigitsCore_all_digits (l : List Char) (acc : Nat)
    (h : ∀ c ∈ l, isDigitChar c = true) :
    pyDigitsCore acc l = some (l.foldl (fun a c => 10 * a + (c.toNat - 48)) acc) := by
  induction l generalizing acc with
  | nil => rfl
  | cons c rest ih =>
    have hc := h c (List.mem_cons_self c rest)
    rw [pyDigitsCore.eq_def]
    simp only [hc, if_true, List.foldl_cons]
    exact ih _ (fun d hd => h d (List.mem_cons_of_mem c hd))

theorem pyInt_digits (ds : List Char) (h1 : ds ≠ [])
    (h2 : ∀ c ∈ ds, isDigitChar c = true) :
    pyInt ds = some (decimalVal ds) := by
  cases ds with
  | nil => exact absurd rfl h1
  | cons c rest =>
    have hc : isDigitChar c = true := h2 c (List.mem_cons_self c rest)
    have hstrip : pyStrip (c :: rest) = c :: rest :=
      pyStrip_all_false _ (fun d hd => isDigitChar_not_space d (h2 d hd))
    have hplus : ¬ (c = '+') := ne_of_digit_nondigit c '+' hc (by decide)
    have hminus : ¬ (c = '-') := ne_of_digit_nondigit c '-' hc (by decide)
    unfold pyInt
    rw [hstrip]
    simp only [if_neg hplus, if_neg hminus, pyDigits, hc, if_true]
    rw [pyDigitsCore_all_digits rest _ (fun d hd => h2 d (List.mem_cons_of_mem c hd))]
    simp [decimalVal, List.foldl_cons]

/-- C10: `get_id_from_tag` is total by construction (`pyInt` returns an
`Option`), computes exactly `pyInt` of the input after stripping whitespace
and removing an optional leading `<@` and trailing `>`, and on any nonempty
decimal-digit string accepts the bare form and the `<@…>` mention form
alike, returning the denoted integer. -/
theorem get_id_total_and_forms (ds : List Char) (h1 : ds ≠ [])
    (h2 : ∀ c ∈ ds, isDigitChar c = true) :
    (∀ (tag : List Char) (n : Int), get_id_from_tag tag = some n ↔
        pyInt (pyRemoveTrailing ['>'] (pyRemoveLeading ['<', '@'] (pyStrip tag))) = some n) ∧
    get_id_from_tag ds = some (decimalVal ds) ∧
    get_id_from_tag ('<' :: '@' :: (ds ++ ['>'])) = some (decimalVal ds) := by
  refine ⟨fun tag n => Iff.rfl, ?_, ?_⟩
  · -- bare digit string: none of strip / removeprefix / removesuffix changes it
    unfold get_id_from_tag
    rw [pyStrip_all_false ds (fun d hd => isDigitChar_not_space d (h2 d hd))]
    cases ds with
    | nil => exact absurd rfl h1
    | cons c rest =>
      have hc : isDigitChar c = true := h2 c (List.mem_cons_self c rest)
      have hlead : pyRemoveLeading ['<', '@'] (c :: rest) = c :: rest := by
        have hne : ('<' == c) = false :=
          beq_eq_false_iff_ne.mpr (Ne.symm (ne_of_digit_nondigit c '<' hc (by decide)))
        simp [pyRemoveLeading, List.isPrefixOf, hne]
      rw [hlead]
      have htrail : pyRemoveTrailing ['>'] (c :: rest) = c :: rest := by
        cases hr : (c :: rest).reverse with
        | nil => simp at hr
        | cons c' l' =>
          have hc' : isDigitChar c' = true := by
            refine h2 c' (List.mem_reverse.mp ?_)
            rw [hr]
            exact List.mem_cons_self c' l'
          have hne : ('>' == c') = false :=
            beq_eq_false_iff_ne.mpr (Ne.symm (ne_of_digit_nondigit c' '>' hc' (by decide)))
          have hsuf : (['>'].isSuffixOf (c :: rest)) = false := by
            simp [List.isSuffixOf, hr, List.isPrefixOf, hne]
          simp [pyRemoveTrailing, hsuf]
      rw [htrail]
      exact pyInt_digits (c :: rest) h1 h2
  · -- mention form <@ds>
    unfold get_id_from_tag
    have hstrip : pyStrip ('<' :: '@' :: (ds ++ ['>'])) = '<' :: '@' :: (ds ++ ['>']) := by
      refine pyStrip_all_false _ ?_
      intro d hd
      simp only [List.mem_cons, List.mem_append, List.mem_singleton,
        List.not_mem_nil, or_false] at hd
      rcases hd with rfl | rfl | hd | rfl
      · decide
      · decide
      · exact isDigitChar_not_space d (h2 d hd)
      · decide
    rw [hstrip]
    have hlead : pyRemoveLeading ['<', '@'] ('<' :: '@' :: (ds ++ ['>'])) = ds ++ ['>'] := by
      simp [pyRemoveLeading, List.isPrefixOf]
    rw [hlead]
    have hsuf : (['>'].isSuffixOf (ds ++ ['>'])) = true := by
      simp [List.isSuffixOf, List.reverse_append, List.isPrefixOf]
    have htrail : pyRemoveTrailing ['>'] (ds ++ ['>']) = ds := by
      simp only [pyRemoveTrailing, hsuf, if_true, List.length_append, List.length_singleton,
        Nat.add_sub_cancel]
      exact List.take_left ds ['>']
    rw [htrail]
    exact pyInt_digits ds h1 h2

/-- Witness for C10 at a concrete input: `"123"` and `"<@123>"` both parse
to 123. -/
theorem get_id_total_and_forms_witness :
    get_id_from_tag ['1', '2', '3'] = some 123 ∧
    get_id_from_tag ('<' :: '@' :: (['1', '2', '3'] ++ ['>'])) = some 123 :=
  ⟨(get_id_total_and_forms ['1', '2', '3'] (by decide) (by decide)).2.1,
   (get_id_total_and_forms ['1', '2', '3'] (by decide) (by decide)).2.2⟩

/-! ### `DelayCmd` (the serial delay queue)

`DelayCmd.delay` runs under asyncio's single-threaded cooperative scheduler:
between two `await` points a task's reads and writes of `curr_cmd` and
`total_cmd` are atomic (the two compound read-modify-write sections are
additionally guarded by `self.lock`). The embedding is a transition system
over the shared counters, a global clock (ℚ, counting the source's seconds),
one program counter per task, and ghost history fields recording arrival and
release events. `await asyncio.sleep(d)` resumes a task no earlier than `d`
after it was entered, and the polling loop
(`while self.curr_cmd != local_cmd: await asyncio.sleep(0.1)`) keeps a task
suspended until a step taken when `curr_cmd` equals its ticket. -/

inductive TaskPhase where
  | ready
  | polling (ticket : Nat)
  | throttling (ticket : Nat) (wake : ℚ)
  | finished (ticket : Nat)
deriving DecidableEq

/-- Shared `DelayCmd` state plus the per-task phases and ghost history.
`curr_cmd` and `total_cmd` are the source's counters; `base` is a ghost
count of the tickets retired before the most recent counter reset, so that
`base + total_cmd` tickets were ever issued. -/
structure DelayState (N : Nat) where
  curr_cmd : Nat
  total_cmd : Nat
  clock : ℚ
  phase : Fin N → TaskPhase
  arrivals : List (Fin N)
  releases : List (Fin N × ℚ)
  base : Nat

/-- All tasks about to call `delay`; counters zero; nothing recorded. -/
def delayInit (N : Nat) : DelayState N :=
  { curr_cmd := 0, total_cmd := 0, clock := 0, phase := fun _ => .ready,
    arrivals := [], releases := [], base := 0 }

/-- One scheduler step of the system of `N` tasks each executing
`DelayCmd.delay` once.
* `tick`: time passes.
* `arrive`: a task enters `delay` and atomically (under the lock) takes
  ticket `total_cmd` and increments `total_cmd`.
* `enterThrottle`: a task whose ticket equals `curr_cmd` leaves the polling
  loop and enters `await asyncio.sleep(1)`, to wake no earlier than one
  time-unit later.
* `release`: a woken task atomically (under the lock) increments
  `curr_cmd`, resets both counters to 0 when `curr_cmd == total_cmd`, and
  returns; the ghost history records the return. -/
inductive DelayStep (N : Nat) : DelayState N → DelayState N → Prop where
  | tick (st : DelayState N) (δ : ℚ) (hδ : 0 < δ) :
      DelayStep N st { st with clock := st.clock + δ }
  | arrive (st : DelayState N) (i : Fin N) (h : st.phase i = .ready) :
      DelayStep N st { st with
        total_cmd := st.total_cmd + 1,
        phase := Function.update st.phase i (.polling st.total_cmd),
        arrivals := st.arrivals ++ [i] }
  | enterThrottle (st : DelayState N) (i : Fin N) (t : Nat)
      (h : st.phase i = .polling t) (ht : st.curr_cmd = t) :
      DelayStep N st { st with
        phase := Function.update st.phase i (.throttling t (st.clock + 1)) }
  | release (st : DelayState N) (i : Fin N) (t : Nat) (w : ℚ)
      (h : st.phase i = .throttling t w) (hw : w ≤ st.clock) :
      DelayStep N st { st with
        curr_cmd := if st.curr_cmd + 1 = st.total_cmd then 0 else st.curr_cmd + 1,
        total_cmd := if st.curr_cmd + 1 = st.total_cmd then 0 else st.total_cmd,
        base := if st.curr_cmd + 1 = st.total_cmd then st.base + st.total_cmd else st.base,
        phase := Function.update st.phase i (.finished t),
        releases := st.releases ++ [(i, st.clock)] }

/-- States reachable from the initial state. -/
inductive DelayReachable (N : Nat) : DelayState N → Prop where
  | init : DelayReachable N (delayInit N)
  | step {s s' : DelayState N} :
      DelayReachable N s → DelayStep N s s' → DelayReachable N s'

/-- Inductive invariant of the delay queue. -/
structure DelayInv (N : Nat) (st : DelayState N) : Prop where
  hlen_arr : st.arrivals.length = st.base + st.total_cmd
  hlen_rel : st.releases.length = st.base + st.curr_cmd
  hct : st.curr_cmd ≤ st.total_cmd
  hpoll : ∀ i t, st.phase i = .polling t →
    st.curr_cmd ≤ t ∧ t < st.total_cmd ∧ st.arrivals.get? (st.base + t) = some i
  hthr : ∀ i t w, st.phase i = .throttling t w →
    t = st.curr_cmd ∧ t < st.total_cmd ∧ st.arrivals.get? (st.base + t) = some i ∧
    (∀ j tj wj, j ≠ i → st.phase j ≠ .throttling tj wj) ∧
    (∀ r ∈ st.releases, r.2 ≤ w - 1)
  htime : ∀ r ∈ st.releases, r.2 ≤ st.clock
  hord : ∃ rest, st.arrivals = st.releases.map Prod.fst ++ rest
  hgaps : List.Chain' (fun a b : Fin N × ℚ => a.2 + 1 ≤ b.2) st.releases

theorem delayInv_init (N : Nat) : DelayInv N (delayInit N) := by
  refine ⟨rfl, rfl, le_refl _, ?_, ?_, ?_, ⟨[], rfl⟩, List.chain'_nil⟩
  · intro i t h
    cases h
  · intro i t w h
    cases h
  · intro r hr
    cases hr

theorem delayInv_tick {N : Nat} (st : DelayState N) (δ : ℚ) (hδ : 0 < δ)
    (hs : DelayInv N st) : DelayInv N { st with clock := st.clock + δ } := by
  refine ⟨hs.hlen_arr, hs.hlen_rel, hs.hct, hs.hpoll, hs.hthr, ?_, hs.hord, hs.hgaps⟩
  intro r hr
  have h1 := hs.htime r hr
  dsimp only
  linarith

theorem delayInv_arrive {N : Nat} (st : DelayState N) (i : Fin N)
    (h : st.phase i = .ready) (hs : DelayInv N st) :
    DelayInv N { st with
      total_cmd := st.total_cmd + 1,
      phase := Function.update st.phase i (.polling st.total_cmd),
      arrivals := st.arrivals ++ [i] } := by
  refine ⟨?_, hs.hlen_rel, ?_, ?_, ?_, hs.htime, ?_, hs.hgaps⟩
  · dsimp only
    rw [List.length_append, hs.hlen_arr]
    simp [Nat.add_assoc]
  · exact Nat.le_succ_of_le hs.hct
  · intro j t hj
    dsimp only at hj ⊢
    by_cases hji : j = i
    · subst hji
      rw [Function.update_same] at hj
      injection hj with hjt
      subst hjt
      refine ⟨hs.hct, Nat.lt_succ_self _, ?_⟩
      rw [← hs.hlen_arr]
      exact List.get?_concat_length _ _
    · rw [Function.update_noteq hji] at hj
      obtain ⟨h1, h2, h3⟩ := hs.hpoll j t hj
      refine ⟨h1, Nat.lt_succ_of_lt h2, ?_⟩
      rw [List.get?_append (by rw [hs.hlen_arr]; omega)]
      exact h3
  · intro j t w hj
    dsimp only at hj ⊢
    by_cases hji : j = i
    · subst hji
      rw [Function.update_same] at hj
      cases hj
    · rw [Function.update_noteq hji] at hj
      obtain ⟨h1, h2, h3, h4, h5⟩ := hs.hthr j t w hj
      refine ⟨h1, Nat.lt_succ_of_lt h2, ?_, ?_, h5⟩
      · rw [List.get?_append (by rw [hs.hlen_arr]; omega)]
        exact h3
      · intro k tk wk hkj
        by_cases hki : k = i
        · subst hki
          rw [Function.update_same]
          intro hk
          cases hk
        · rw [Function.update_noteq hki]
          exact h4 k tk wk hkj
  · obtain ⟨rest, hrest⟩ := hs.hord
    exact ⟨rest ++ [i], by dsimp only; rw [hrest, List.append_assoc]⟩

theorem delayInv_enter {N : Nat} (st : DelayState N) (i : Fin N) (t : Nat)
    (h : st.phase i = .polling t) (ht : st.curr_cmd = t) (hs : DelayInv N st) :
    DelayInv N { st with
      phase := Function.update st.phase i (.throttling t (st.clock + 1)) } := by
  obtain ⟨hp1, hp2, hp3⟩ := hs.hpoll i t h
  refine ⟨hs.hlen_arr, hs.hlen_rel, hs.hct, ?_, ?_, hs.htime, hs.hord, hs.hgaps⟩
  · intro j tj hj
    dsimp only at hj ⊢
    by_cases hji : j = i
    · subst hji
      rw [Function.update_same] at hj
      cases hj
    · rw [Function.update_noteq hji] at hj
      exact hs.hpoll j tj hj
  · intro j tj wj hj
    dsimp only at hj ⊢
    by_cases hji : j = i
    · subst hji
      rw [Function.update_same] at hj
      injection hj with hjt hjw
      subst hjt
      subst hjw
      refine ⟨ht.symm, hp2, hp3, ?_, ?_⟩
      · intro k tk wk hki
        rw [Function.update_noteq hki]
        intro hk
        obtain ⟨hk1, _, hk3, _, _⟩ := hs.hthr k tk wk hk
        rw [hk1, ht] at hk3
        rw [hp3] at hk3
        exact hki (Option.some.inj hk3).symm
      · intro r hr
        have h1 := hs.htime r hr
        linarith
    · rw [Function.update_noteq hji] at hj
      exfalso
      obtain ⟨hj1, _, hj3, _, _⟩ := hs.hthr j tj wj hj
      rw [hj1, ht] at hj3
      rw [hp3] at hj3
      exact hji (Option.some.inj hj3).symm

theorem delayInv_release {N : Nat} (st : DelayState N) (i : Fin N) (t : Nat) (w : ℚ)
    (h : st.phase i = .throttling t w) (hw : w ≤ st.clock) (hs : DelayInv N st) :
    DelayInv N { st with
      curr_cmd := if st.curr_cmd + 1 = st.total_cmd then 0 else st.curr_cmd + 1,
      total_cmd := if st.curr_cmd + 1 = st.total_cmd then 0 else st.total_cmd,
      base := if st.curr_cmd + 1 = st.total_cmd then st.base + st.total_cmd else st.base,
      phase := Function.update st.phase i (.finished t),
      releases := st.releases ++ [(i, st.clock)] } := by
  obtain ⟨ht1, ht2, ht3, ht4, ht5⟩ := hs.hthr i t w h
  obtain ⟨rest, hrest⟩ := hs.hord
  have hlenmap : (st.releases.map Prod.fst).length = st.base + st.curr_cmd := by
    rw [List.length_map, hs.hlen_rel]
  have hcurri : st.arrivals.get? (st.base + st.curr_cmd) = some i := by
    rw [← ht1]; exact ht3
  have hresti : rest.get? 0 = some i := by
    rw [hrest, List.get?_append_right (by rw [hlenmap])] at hcurri
    rw [hlenmap] at hcurri
    simpa using hcurri
  obtain ⟨tail, htail⟩ : ∃ tail, rest = i :: tail := by
    cases rest with
    | nil => cases hresti
    | cons r0 tl =>
      refine ⟨tl, ?_⟩
      have : r0 = i := Option.some.inj hresti
      rw [this]
  have hordnew : ∃ r2, st.arrivals =
      ((st.releases ++ [(i, st.clock)]).map Prod.fst) ++ r2 := by
    refine ⟨tail, ?_⟩
    rw [hrest, htail, List.map_append]
    simp [List.append_assoc]
  have hgapsnew : List.Chain' (fun a b : Fin N × ℚ => a.2 + 1 ≤ b.2)
      (st.releases ++ [(i, st.clock)]) := by
    rw [List.chain'_append]
    refine ⟨hs.hgaps, List.chain'_singleton _, ?_⟩
    intro x hx y hy
    simp only [List.head?_cons, Option.mem_def, Option.some.injEq] at hy
    subst hy
    obtain ⟨hne, hxl⟩ := List.mem_getLast?_eq_getLast hx
    have hxmem : x ∈ st.releases := hxl ▸ List.getLast_mem hne
    have hx5 := ht5 x hxmem
    dsimp only
    linarith
  have htimenew : ∀ r ∈ st.releases ++ [(i, st.clock)], r.2 ≤ st.clock := by
    intro r hr
    rcases List.mem_append.mp hr with hr | hr
    · exact hs.htime r hr
    · simp only [List.mem_singleton] at hr
      subst hr
      exact le_refl _
  have hpoll_ne : ∀ j tj, j ≠ i → st.phase j = .polling tj → st.curr_cmd < tj := by
    intro j tj hji hj
    obtain ⟨hpj1, _, hpj3⟩ := hs.hpoll j tj hj
    rcases Nat.lt_or_ge st.curr_cmd tj with hlt | hge
    · exact hlt
    · exfalso
      have : tj = st.curr_cmd := Nat.le_antisymm (Nat.le_of_lt_succ (Nat.lt_succ_of_le hge)) hpj1
      rw [this] at hpj3
      rw [hcurri] at hpj3
      exact hji (Option.some.inj hpj3).symm
  by_cases hres : st.curr_cmd + 1 = st.total_cmd
  · simp only [if_pos hres]
    refine ⟨?_, ?_, Nat.le_refl 0, ?_, ?_, htimenew, hordnew, hgapsnew⟩
    · dsimp only
      rw [hs.hlen_arr]
      omega
    · dsimp only
      rw [List.length_append, hs.hlen_rel]
      simp only [List.length_singleton]
      omega
    · intro j tj hj
      dsimp only at hj
      exfalso
      by_cases hji : j = i
      · subst hji
        rw [Function.update_same] at hj
        cases hj
      · rw [Function.update_noteq hji] at hj
        have hlt := hpoll_ne j tj hji hj
        obtain ⟨_, hj2, _⟩ := hs.hpoll j tj hj
        omega
    · intro j tj wj hj
      dsimp only at hj
      exfalso
      by_cases hji : j = i
      · subst hji
        rw [Function.update_same] at hj
        cases hj
      · rw [Function.update_noteq hji] at hj
        exact ht4 j tj wj hji hj
  · simp only [if_neg hres]
    refine ⟨hs.hlen_arr, ?_, ?_, ?_, ?_, htimenew, hordnew, hgapsnew⟩
    · dsimp only
      rw [List.length_append, hs.hlen_rel]
      simp only [List.length_singleton]
      omega
    · dsimp only
      omega
    · intro j tj hj
      dsimp only at hj ⊢
      by_cases hji : j = i
      · subst hji
        rw [Function.update_same] at hj
        cases hj
      · rw [Function.update_noteq hji] at hj
        have hlt := hpoll_ne j tj hji hj
        obtain ⟨_, hj2, hj3⟩ := hs.hpoll j tj hj
        exact ⟨hlt, hj2, hj3⟩
    · intro j tj wj hj
      dsimp only at hj
      exfalso
      by_cases hji : j = i
      · subst hji
        rw [Function.update_same] at hj
        cases hj
      · rw [Function.update_noteq hji] at hj
        exact ht4 j tj wj hji hj

theorem delayInv_step {N : Nat} {s s' : DelayState N} (hs : DelayInv N s)
    (hstep : DelayStep N s s') : DelayInv N s' := by
  cases hstep with
  | tick δ hδ => exact delayInv_tick s δ hδ hs
  | arrive i h => exact delayInv_arrive s i h hs
  | enterThrottle i t h ht => exact delayInv_enter s i t h ht hs
  | release i t w h hw => exact delayInv_release s i t w h hw hs

theorem delayInv_reachable {N : Nat} {st : DelayState N}
    (h : DelayReachable N st) : DelayInv N st := by
  induction h with
  | init => exact delayInv_init N
  | step _ hstep ih => exact delayInv_step ih hstep

/-- C6: in every reachable state of the delay queue, the sequence of
returns from `delay` (the releases) follows exactly the order in which the
callers took their tickets (their arrival order at `delay`) — the released
callers form an initial segment of the arrival history — and the clock
times of successive releases are at least the minimum interval 1 time-unit
apart. -/
theorem delay_fifo_and_min_gap (N : Nat) (st : DelayState N)
    (h : DelayReachable N st) :
    (∃ rest, st.arrivals = st.releases.map Prod.fst ++ rest) ∧
    List.Chain' (fun a b : Fin N × ℚ => a.2 + 1 ≤ b.2) st.releases :=
  ⟨(delayInv_reachable h).hord, (delayInv_reachable h).hgaps⟩

/-- Witness for C6 at a concrete reachable state. -/
theorem delay_fifo_and_min_gap_witness :
    (∃ rest, (delayInit 1).arrivals = (delayInit 1).releases.map Prod.fst ++ rest) ∧
    List.Chain' (fun a b : Fin 1 × ℚ => a.2 + 1 ≤ b.2) (delayInit 1).releases :=
  delay_fifo_and_min_gap 1 (delayInit 1) DelayReachable.init

end CrewDiscBot
